import Mathlib

/-!
Verification of the `mobl` call-graph extractor.

The Go sources (`main.go` and the unnamed variants) walk a directory for
`.go` files, extract function declarations and the bare-identifier calls
inside their bodies with two tree-sitter queries, aggregate the records in a
`map[string]*Function`, store/reload them through a SQLite file
(`callgraph.db`) and render DOT output.  The definitions below are a shallow
embedding of those operations; the theorems settle the specification claims.
-/

namespace Mobl

/-- A call expression inside a function body, as classified by the call query
`(call_expression function: (identifier) @call.name)` of `processFile`:
only calls whose callee node is a bare `identifier` are captured; a call whose
function is a qualified (selector) expression is not captured. -/
inductive Callee where
  | ident (name : String)
  | qualified (receiver : String) (name : String)
deriving DecidableEq

/-- A declaration in a parsed Go file, as the tree-sitter Go grammar types it:
a plain `function_declaration` (name and block body) or a
`method_declaration` (a function with a receiver).  The declaration query of
`processFile` matches `function_declaration` nodes only. -/
inductive Decl where
  | funcDecl (name : String) (body : List Callee)
  | methodDecl (receiver : String) (name : String) (body : List Callee)
deriving DecidableEq

/-- The `Function` struct of `main.go` (fields `Name`, `FilePath`, `Calls`). -/
structure Function where
  name : String
  filePath : String
  calls : List String
deriving DecidableEq

/-- The in-memory `functionMap` (`map[string]*Function`), as an association
list read through `findFn`. -/
abbrev CallGraph := List (String × Function)

/-- Go map assignment `functionMap[name] = function`: the entry keyed by
`f.name` is overwritten unconditionally. -/
def insertFn (g : CallGraph) (f : Function) : CallGraph :=
  g.filter (fun p => p.1 != f.name) ++ [(f.name, f)]

/-- Go map lookup `functionMap[n]`. -/
def findFn (g : CallGraph) (n : String) : Option Function :=
  (g.find? (fun p => p.1 == n)).map (fun p => p.2)

/-- The callee text captured by the call query, if the callee is a bare
identifier. -/
def callName : Callee → Option String
  | .ident n => some n
  | .qualified _ _ => none

/-- The ordered list of captured callee texts of one body (the inner
`callCursor` loop of `processFile`): textual order, duplicates kept. -/
def bodyCalls (body : List Callee) : List String := body.filterMap callName

/-- The declaration query: a `function_declaration` yields its name and body
captures; a `method_declaration` is not matched. -/
def declMatch : Decl → Option (String × List Callee)
  | .funcDecl n b => some (n, b)
  | .methodDecl _ _ _ => none

/-- The `Function` literal built by `processFile` for one matched
declaration. -/
def mkRecord (filePath name : String) (body : List Callee) : Function :=
  { name := name, filePath := filePath, calls := bodyCalls body }

/-- One iteration of the `cursor.NextMatch` loop of `processFile`. -/
def processDecl (filePath : String) (g : CallGraph) (d : Decl) : CallGraph :=
  match declMatch d with
  | none => g
  | some (n, b) => insertFn g (mkRecord filePath n b)

/-- The declaration loop of `processFile` over an already-parsed file. -/
def processParsed (filePath : String) (decls : List Decl) (g : CallGraph) : CallGraph :=
  decls.foldl (processDecl filePath) g

/-- The stream of `Function` records `processFile` builds for one file, in
match order. -/
def fileRecords (filePath : String) (decls : List Decl) : List Function :=
  decls.filterMap (fun d => (declMatch d).map (fun nb => mkRecord filePath nb.1 nb.2))

/-- `concatMap f l` concatenates `f` over `l` (used to flatten per-file record
streams in walk order). -/
def concatMap (f : α → List β) : List α → List β
  | [] => []
  | a :: l => f a ++ concatMap f l

/-- Aggregating a sequence of parsed files into one `functionMap`, in walk
order, starting from the empty map as `main` does. -/
def processFiles (files : List (String × List Decl)) : CallGraph :=
  files.foldl (fun g pf => processParsed pf.1 pf.2 g) []

/-- All records extracted from a sequence of parsed files, in walk order. -/
def allRecords (files : List (String × List Decl)) : List Function :=
  concatMap (fun pf => fileRecords pf.1 pf.2) files

/-- The last record named `n` in a record stream, if any. -/
def lastWith (n : String) : List Function → Option Function
  | [] => none
  | r :: rs =>
    match lastWith n rs with
    | some r' => some r'
    | none => if r.name == n then some r else none

/-! ### Association-list lemmas for the aggregator -/

theorem find?_filter_of (p q : α → Bool) (l : List α)
    (h : ∀ x, p x = true → q x = true) :
    (l.filter q).find? p = l.find? p := by
  induction l with
  | nil => rfl
  | cons a l ih =>
    cases hq : q a with
    | true =>
      cases hp : p a with
      | true => simp [List.filter_cons, List.find?_cons, hq, hp]
      | false => simp [List.filter_cons, List.find?_cons, hq, hp, ih]
    | false =>
      have hp : p a = false := by
        cases hpa : p a
        · rfl
        · rw [h a hpa] at hq; cases hq
      simp [List.filter_cons, List.find?_cons, hq, hp, ih]

theorem findFn_insertFn (g : CallGraph) (f : Function) (n : String) :
    findFn (insertFn g f) n = if f.name == n then some f else findFn g n := by
  unfold findFn insertFn
  rw [List.find?_append]
  by_cases h : f.name = n
  · subst h
    have h0 : (g.filter (fun p => p.1 != f.name)).find? (fun p => p.1 == f.name) = none := by
      rw [List.find?_eq_none]
      intro x hx
      have := (List.mem_filter.mp hx).2
      simp_all
    simp [h0]
  · have hne : (f.name == n) = false := by simp [h]
    have hq : ∀ x : String × Function, (x.1 == n) = true → (x.1 != f.name) = true := by
      intro x hx
      have hx' : x.1 = n := by simpa using hx
      simp [hx', Ne.symm h]
    rw [find?_filter_of (fun p => p.1 == n) (fun p => p.1 != f.name) g hq]
    have h1 : (List.find? (fun p : String × Function => p.1 == n) [(f.name, f)]) = none := by
      simp [List.find?_cons, hne]
    rw [h1, Option.or_none]
    simp [hne]

theorem findFn_foldl_insertFn (rs : List Function) (g : CallGraph) (n : String) :
    findFn (rs.foldl insertFn g) n =
      match lastWith n rs with
      | some r => some r
      | none => findFn g n := by
  induction rs generalizing g with
  | nil => simp [lastWith]
  | cons r rs ih =>
    simp only [List.foldl_cons, lastWith]
    rw [ih]
    cases h : lastWith n rs with
    | some r' => simp
    | none =>
      simp only []
      rw [findFn_insertFn]
      by_cases hn : r.name = n
      · simp [hn]
      · simp [hn]

theorem processParsed_eq_foldl (filePath : String) (decls : List Decl) (g : CallGraph) :
    processParsed filePath decls g = (fileRecords filePath decls).foldl insertFn g := by
  induction decls generalizing g with
  | nil => rfl
  | cons d decls ih =>
    rw [show processParsed filePath (d :: decls) g =
        processParsed filePath decls (processDecl filePath g d) from rfl,
      ih (processDecl filePath g d)]
    cases d with
    | funcDecl n b => rfl
    | methodDecl r n b => rfl

theorem processFiles_eq_foldl (files : List (String × List Decl)) :
    processFiles files = (allRecords files).foldl insertFn [] := by
  suffices h : ∀ g, files.foldl (fun g pf => processParsed pf.1 pf.2 g) g =
      (allRecords files).foldl insertFn g from h []
  induction files with
  | nil => intro g; rfl
  | cons pf files ih =>
    intro g
    have h1 : allRecords (pf :: files) = fileRecords pf.1 pf.2 ++ allRecords files := rfl
    rw [List.foldl_cons, ih (processParsed pf.1 pf.2 g), h1, List.foldl_append,
      processParsed_eq_foldl]

/-! ### Claim C1: last write wins on name collisions -/

/-- Claim C1: aggregation over any sequence of processed files is
last-write-wins per function name: the final entry under a name is exactly the
record built from the declaration processed last in walk order (so an earlier
declaration's calls list is discarded entirely, never merged). -/
theorem insert_overwrites_last_wins (files : List (String × List Decl)) (n : String) :
    findFn (processFiles files) n = lastWith n (allRecords files) := by
  rw [processFiles_eq_foldl, findFn_foldl_insertFn]
  cases h : lastWith n (allRecords files) with
  | some r => rfl
  | none => simp [findFn]

/-! ### Claim C8: every key maps to a record carrying that key as its name -/

/-- Claim C8: the aggregation invariant — every entry of the map satisfies
`key = record.name`; a single `insertFn` preserves it, and every map reachable
by aggregating files from the empty map satisfies it. -/
theorem key_eq_record_name :
    (∀ (g : CallGraph) (f : Function), (∀ p ∈ g, p.2.name = p.1) →
      ∀ p ∈ insertFn g f, p.2.name = p.1) ∧
    (∀ (files : List (String × List Decl)) (p : String × Function),
      p ∈ processFiles files → p.2.name = p.1) := by
  have hins : ∀ (g : CallGraph) (f : Function), (∀ p ∈ g, p.2.name = p.1) →
      ∀ p ∈ insertFn g f, p.2.name = p.1 := by
    intro g f hg p hp
    unfold insertFn at hp
    rcases List.mem_append.mp hp with h | h
    · exact hg p (List.mem_filter.mp h).1
    · simp only [List.mem_singleton] at h
      subst h
      rfl
  refine ⟨hins, ?_⟩
  intro files p hp
  rw [processFiles_eq_foldl] at hp
  have key : ∀ (rs : List Function) (g : CallGraph), (∀ q ∈ g, q.2.name = q.1) →
      ∀ q ∈ rs.foldl insertFn g, q.2.name = q.1 := by
    intro rs
    induction rs with
    | nil => intro g hg q hq; exact hg q hq
    | cons r rs ih =>
      intro g hg q hq
      exact ih (insertFn g r) (hins g r hg) q hq
  exact key (allRecords files) [] (by intro q hq; cases hq) p hp

/-- Witness for C8 at a concrete aggregation. -/
theorem key_eq_record_name_witness :
    (Function.mk "f" "x.go" ["g"]).name = "f" :=
  key_eq_record_name.2 [("x.go", [Decl.funcDecl "f" [Callee.ident "g"]])]
    ("f", Function.mk "f" "x.go" ["g"]) (by decide)

/-! ### Claim C6: calls lists are exact, ordered, duplicate-preserving -/

/-- Claim C6: for every parsed file, the produced records are, in match order,
exactly one per matched declaration, each carrying the declared name, the file
path, and as `calls` precisely the ordered sequence of bare-identifier callee
texts of that declaration's body (duplicates kept verbatim); a matched
declaration with an empty body still yields a record, with an empty `calls`
sequence. -/
theorem record_calls_exact (path : String) (decls : List Decl) :
    fileRecords path decls =
      (decls.filterMap declMatch).map (fun nb => Function.mk nb.1 path (bodyCalls nb.2)) ∧
    ∀ n, Decl.funcDecl n [] ∈ decls → Function.mk n path [] ∈ fileRecords path decls := by
  constructor
  · rw [List.map_filterMap]
    rfl
  · intro n hn
    unfold fileRecords
    exact List.mem_filterMap.mpr ⟨Decl.funcDecl n [], hn, rfl⟩

/-- Witness for C6: an empty-body declaration still produces a record with an
empty calls list. -/
theorem record_calls_exact_witness :
    Function.mk "f" "a.go" [] ∈ fileRecords "a.go" [Decl.funcDecl "f" []] :=
  (record_calls_exact "a.go" [Decl.funcDecl "f" []]).2 "f" (by decide)

/-! ### Claim C10: method declarations never produce records -/

/-- Whether a declaration is a plain (receiver-less) `function_declaration`. -/
def Decl.isPlainFunc : Decl → Bool
  | .funcDecl _ _ => true
  | .methodDecl _ _ _ => false

/-- Claim C10: only plain `function_declaration` nodes produce records: the
record stream and the aggregated map of a file are unchanged when method
declarations are removed, and a lone method declaration yields no record at
all (so method names never enter the map and calls in method bodies are never
recorded). -/
theorem methods_never_recorded (path : String) (decls : List Decl) (g : CallGraph) :
    fileRecords path decls = fileRecords path (decls.filter Decl.isPlainFunc) ∧
    processParsed path decls g = processParsed path (decls.filter Decl.isPlainFunc) g ∧
    ∀ receiver n body, fileRecords path [Decl.methodDecl receiver n body] = [] := by
  refine ⟨?_, ?_, ?_⟩
  · induction decls with
    | nil => rfl
    | cons d decls ih =>
      cases d with
      | funcDecl n b => simp [fileRecords, List.filter_cons, Decl.isPlainFunc,
          List.filterMap_cons, declMatch] at ih ⊢; exact ih
      | methodDecl r n b => simp [fileRecords, List.filter_cons, Decl.isPlainFunc,
          List.filterMap_cons, declMatch] at ih ⊢; exact ih
  · induction decls generalizing g with
    | nil => rfl
    | cons d decls ih =>
      cases d with
      | funcDecl n b =>
        simp only [processParsed, List.foldl_cons, List.filter_cons, Decl.isPlainFunc, if_true]
        exact ih (processDecl path g (Decl.funcDecl n b))
      | methodDecl r n b =>
        have hskip : processDecl path g (Decl.methodDecl r n b) = g := by
          simp [processDecl, declMatch]
        simp only [processParsed, List.foldl_cons, List.filter_cons, Decl.isPlainFunc,
          if_false, hskip]
        exact ih g
  · intro receiver n body
    rfl

/-! ### The directory walk of `main` -/

/-- The outcome of `processFile` for one file: `os.ReadFile` failure,
`parser.ParseCtx` failure, or a successful parse yielding declarations. -/
inductive FileOutcome where
  | readErr (msg : String)
  | parseErr (msg : String)
  | parsed (decls : List Decl)
deriving DecidableEq

/-- One callback invocation of `filepath.Walk`: either the entry could not be
statted/read (`err != nil` passed to the callback), or a visited entry with
its path, directory flag, and — for files — the `processFile` outcome. -/
inductive WalkEvent where
  | statErr (msg : String)
  | entry (path : String) (isDir : Bool) (outcome : FileOutcome)
deriving DecidableEq

/-- `filepath.Ext`: the suffix of the last path element starting at its final
dot, or the empty string when that element has no dot. -/
def filepathExt (p : String) : String :=
  let revBase := p.data.reverse.takeWhile (fun c => c != '/')
  if revBase.contains '.' then
    String.mk ('.' :: (revBase.takeWhile (fun c => c != '.')).reverse)
  else ""

/-- The walk callback's filter: `!info.IsDir() && filepath.Ext(path) == ".go"`. -/
def isGoFile (path : String) (isDir : Bool) : Bool :=
  !isDir && filepathExt path == ".go"

/-- `processFile`: read failure and parse failure return an error before any
record is built; a parsed file folds its declarations into the map. -/
def processFile (filePath : String) (o : FileOutcome) (g : CallGraph) :
    Except String CallGraph :=
  match o with
  | .readErr msg => .error ("error reading file: " ++ msg)
  | .parseErr msg => .error ("error parsing file: " ++ msg)
  | .parsed decls => .ok (processParsed filePath decls g)

/-- The `filepath.Walk` loop of `main`: a callback error (a stat/read failure
propagated by `return err`) stops the walk and is returned (then
`log.Fatal`ed); a `processFile` error is logged and the walk continues; a
successful `processFile` updates the map. -/
def walk : List WalkEvent → CallGraph → Except String CallGraph
  | [], g => .ok g
  | .statErr msg :: _, _ => .error msg
  | .entry p d o :: rest, g =>
    if isGoFile p d then
      match processFile p o g with
      | .error _ => walk rest g
      | .ok g' => walk rest g'
    else walk rest g

/-- The net effect of one visited entry on the map. -/
def entryStep (p : String) (d : Bool) (o : FileOutcome) (g : CallGraph) : CallGraph :=
  if isGoFile p d then
    match o with
    | .parsed decls => processParsed p decls g
    | _ => g
  else g

theorem walk_cons_entry (p : String) (d : Bool) (o : FileOutcome)
    (rest : List WalkEvent) (g : CallGraph) :
    walk (WalkEvent.entry p d o :: rest) g = walk rest (entryStep p d o g) := by
  by_cases h : isGoFile p d = true
  · cases o <;> simp [walk, entryStep, h, processFile]
  · simp only [Bool.not_eq_true] at h
    cases o <;> simp [walk, entryStep, h]

/-- `true` iff no stat/read failure event occurs in the walk. -/
def noStatErr : List WalkEvent → Bool
  | [] => true
  | .statErr _ :: _ => false
  | .entry _ _ _ :: rest => noStatErr rest

/-- The `.go` files visited without a stat error whose content was read and
parsed successfully, in walk order. -/
def okGoFiles : List WalkEvent → List (String × List Decl)
  | [] => []
  | .statErr _ :: rest => okGoFiles rest
  | .entry p d o :: rest =>
    if isGoFile p d then
      match o with
      | .parsed decls => (p, decls) :: okGoFiles rest
      | _ => okGoFiles rest
    else okGoFiles rest

theorem walk_ok_of_noStatErr (ev : List WalkEvent) (h : noStatErr ev = true) :
    ∀ g, walk ev g =
      Except.ok ((okGoFiles ev).foldl (fun g pf => processParsed pf.1 pf.2 g) g) := by
  induction ev with
  | nil => intro g; rfl
  | cons e rest ih =>
    cases e with
    | statErr s => simp [noStatErr] at h
    | entry p d o =>
      intro g
      have hrest : noStatErr rest = true := by simpa [noStatErr] using h
      rw [walk_cons_entry, ih hrest]
      by_cases hgo : isGoFile p d = true
      · cases o <;> simp [entryStep, okGoFiles, hgo]
      · simp only [Bool.not_eq_true] at hgo
        cases o <;> simp [entryStep, okGoFiles, hgo]

/-! ### Claim C2 (corrected): stat errors abort the walk -/

/-- Counterexample to claim C2 as stated: a single stat/read failure on a
directory entry makes the whole walk return an error (after which `main` calls
`log.Fatal`), so the remaining file — a perfectly readable `.go` file — is
never analyzed. -/
theorem stat_error_aborts_cex :
    walk [WalkEvent.statErr "permission denied",
      WalkEvent.entry "ok.go" false (FileOutcome.parsed [Decl.funcDecl "f" []])] [] =
    Except.error "permission denied" := rfl

/-- Claim C2 (amended): a failure to read a `.go` file's content is skipped
per-entry and the walk continues identically on the remaining events, but a
stat failure reported to the walk callback aborts the entire walk
immediately. -/
theorem read_error_skipped_stat_error_aborts (ev₁ ev₂ : List WalkEvent)
    (p msg : String) (g : CallGraph) :
    walk (ev₁ ++ WalkEvent.entry p false (FileOutcome.readErr msg) :: ev₂) g =
      walk (ev₁ ++ ev₂) g ∧
    ∀ (s : String) (rest : List WalkEvent) (g' : CallGraph),
      walk (WalkEvent.statErr s :: rest) g' = Except.error s := by
  constructor
  · induction ev₁ generalizing g with
    | nil =>
      simp only [List.nil_append]
      rw [walk_cons_entry]
      have hstep : entryStep p false (FileOutcome.readErr msg) g = g := by
        by_cases h : isGoFile p false = true <;> simp [entryStep, h]
      rw [hstep]
    | cons e ev₁ ih =>
      cases e with
      | statErr s => rfl
      | entry q d o =>
        simp only [List.cons_append]
        rw [walk_cons_entry, walk_cons_entry, ih]
  · intro s rest g'
    rfl

/-! ### Claim C7: parse failures are per-file and non-fatal -/

/-- Claim C7: in a walk without stat errors, the walk succeeds (so `main`
continues and the process can exit 0), and the final map is exactly the
aggregation of the files that were read and parsed successfully — a file
whose content fails to parse contributes zero records and does not stop the
remaining files from being analyzed. -/
theorem parse_failure_skipped (ev : List WalkEvent) (h : noStatErr ev = true) :
    walk ev [] = Except.ok (processFiles (okGoFiles ev)) :=
  walk_ok_of_noStatErr ev h []

/-- A concrete walk with a malformed file next to a valid one. -/
def sampleWalk : List WalkEvent :=
  [WalkEvent.entry "bad.go" false (FileOutcome.parseErr "syntax error"),
   WalkEvent.entry "good.go" false (FileOutcome.parsed [Decl.funcDecl "f" [Callee.ident "g"]])]

/-- Witness for C7 at a concrete walk. -/
theorem parse_failure_skipped_witness :
    noStatErr sampleWalk = true ∧
    walk sampleWalk [] = Except.ok (processFiles (okGoFiles sampleWalk)) :=
  ⟨by decide, parse_failure_skipped sampleWalk (by decide)⟩

/-! ### The CLI surface (`flag` variant) -/

/-- The configuration produced by CLI parsing in the `-dotgraph` variant: the
DOT output path (flag `-dotgraph`, default `"callgraph.dot"`) and the single
positional source directory. -/
structure Config where
  dotgraph : String
  sourceDir : String
deriving DecidableEq

def usageMsg : String := "Usage: program [-dotgraph output_file] <source_directory>"

/-- How Go's `flag.Parse` treats one argument token when the only registered
flag is the string flag `dotgraph`. -/
inductive FlagStep where
  | stop
  | terminator
  | takeValue
  | inlineValue (v : String)
  | bad (e : String)
deriving DecidableEq

/-- Classification of one token by `flag.Parse`: a token of fewer than two
characters or not beginning with a dash stops flag parsing (it is the first
positional argument); a bare `--` terminates flag parsing; `-dotgraph` (or
`--dotgraph`) takes the next token as its value; `-dotgraph=v` carries its
value inline; an empty or dash/equals-led flag name is malformed and any
other name is not defined — both errors. -/
def classifyFlag (s : String) : FlagStep :=
  match s.data with
  | [] => .stop
  | [_] => .stop
  | c0 :: c1 :: cs =>
    if c0 != '-' then .stop
    else if c1 == '-' && cs == [] then .terminator
    else
      let name := if c1 == '-' then cs else c1 :: cs
      match name with
      | [] => .bad ("bad flag syntax: " ++ s)
      | n0 :: _ =>
        if n0 == '-' || n0 == '=' then .bad ("bad flag syntax: " ++ s)
        else if name == "dotgraph".data then .takeValue
        else if ("dotgraph=".data).isPrefixOf name then .inlineValue (String.mk (name.drop 9))
        else .bad ("flag provided but not defined: " ++ s)

/-- The `flag.Parse` loop; the `Bool` records that the previous token was
`-dotgraph` and the current token is consumed as its value. -/
def parseFlagsAux : List String → String → Bool → Except String (String × List String)
  | [], _, true => .error "flag needs an argument: -dotgraph"
  | [], dot, false => .ok (dot, [])
  | s :: rest, _, true => parseFlagsAux rest s false
  | s :: rest, dot, false =>
    match classifyFlag s with
    | .stop => .ok (dot, s :: rest)
    | .terminator => .ok (dot, rest)
    | .takeValue => parseFlagsAux rest dot true
    | .inlineValue v => parseFlagsAux rest v false
    | .bad e => .error e

/-- Go `flag.Parse` for the single string flag `-dotgraph` (default supplied
by the caller): leading flag tokens are consumed, parsing stops at the first
non-flag token (or after a bare `--`), and the flag value plus remaining
positional arguments are returned. -/
def parseFlags (args : List String) (dot : String) : Except String (String × List String) :=
  parseFlagsAux args dot false

/-- The CLI handling of the `-dotgraph` variant's `main`: parse flags, then
require exactly one positional argument (`flag.NArg() != 1` is a fatal usage
error), else run with the flag value and the source directory. -/
def parseMain (args : List String) : Except String Config :=
  match parseFlags args "callgraph.dot" with
  | .error e => .error e
  | .ok (dot, pos) =>
    match pos with
    | [dir] => .ok ⟨dot, dir⟩
    | _ => .error usageMsg

theorem parseFlags_nonflag (dir : String) (rest : List String) (dot : String)
    (h : classifyFlag dir = FlagStep.stop) :
    parseFlags (dir :: rest) dot = Except.ok (dot, dir :: rest) := by
  simp [parseFlags, parseFlagsAux, h]

/-! ### Claim C5 (corrected): no output flag is required -/

/-- Counterexample to claim C5 as stated: invoking the program with only the
source directory and no output flag at all does not fail with a usage error —
it runs with the default DOT output path `callgraph.dot`. -/
theorem no_output_flag_still_runs_cex :
    parseMain ["./mysrc"] = Except.ok (Config.mk "callgraph.dot" "./mysrc") := rfl

/-- Claim C5 (amended): output flags are optional — a run with only the
positional source directory succeeds using the default output path
`callgraph.dot`, a run with `-dotgraph` uses the given path, and the usage
error (with non-zero exit) occurs exactly when the positional argument is
missing. -/
theorem output_flag_optional (dir out : String) (h : classifyFlag dir = FlagStep.stop) :
    parseMain [dir] = Except.ok (Config.mk "callgraph.dot" dir) ∧
    parseMain ["-dotgraph", out, dir] = Except.ok (Config.mk out dir) ∧
    parseMain [] = Except.error usageMsg := by
  refine ⟨?_, ?_, rfl⟩
  · simp [parseMain, parseFlags_nonflag dir [] "callgraph.dot" h]
  · have hc : classifyFlag "-dotgraph" = FlagStep.takeValue := by decide
    have step : parseFlags ["-dotgraph", out, dir] "callgraph.dot" = parseFlags [dir] out := by
      simp [parseFlags, parseFlagsAux, hc]
    simp [parseMain, step, parseFlags_nonflag dir [] out h]

/-- Witness for the amended C5 at concrete arguments. -/
theorem output_flag_optional_witness :
    parseMain ["proj"] = Except.ok (Config.mk "callgraph.dot" "proj") ∧
    parseMain ["-dotgraph", "out.dot", "proj"] = Except.ok (Config.mk "out.dot" "proj") ∧
    parseMain [] = Except.error usageMsg :=
  output_flag_optional "proj" "out.dot" (by decide)

/-! ### The SQLite store (`storeToDgraph`) and reload (`queryCallGraph`) -/

/-- A row of the `nodes` table: `body` is the JSON object
`{"id": name, "name": name, "filePath": filePath}` built by `storeToDgraph`,
and the generated `id` column extracts `$.id`; the table is `UNIQUE` on
`id`. -/
structure NodeRow where
  id : String
  name : String
  filePath : String
deriving DecidableEq

/-- A row of the `edges` table (`source`, `target`, `properties`), declared
`UNIQUE(source, target, properties) ON CONFLICT REPLACE`. -/
structure EdgeRow where
  source : String
  target : String
  properties : String
deriving DecidableEq

/-- The persistent state of the `callgraph.db` file.  `storeToDgraph` only
ever does `CREATE TABLE IF NOT EXISTS` and row inserts: existing rows from
earlier invocations are kept. -/
structure DB where
  nodes : List NodeRow
  edges : List EdgeRow
deriving DecidableEq

/-- The state of a `callgraph.db` that does not exist yet. -/
def emptyDB : DB := ⟨[], []⟩

/-- `INSERT OR REPLACE INTO nodes (body) VALUES (?)`: a row conflicting on
the unique generated `id` is deleted and the new row inserted. -/
def insertNode (db : DB) (r : NodeRow) : DB :=
  { db with nodes := db.nodes.filter (fun n => n.id != r.id) ++ [r] }

/-- `INSERT OR REPLACE INTO edges (source, target, properties)`: a row
conflicting on the unique triple — that is, an identical row — is deleted and
the new row inserted. -/
def insertEdge (db : DB) (e : EdgeRow) : DB :=
  { db with edges := db.edges.filter (fun x => x != e) ++ [e] }

/-- The node-insertion pass of `storeToDgraph`: one row per function, with
`id` and `name` both `function.Name` and the function's file path. -/
def storeNodes (functionMap : CallGraph) (db : DB) : DB :=
  functionMap.foldl (fun db p => insertNode db ⟨p.2.name, p.2.name, p.2.filePath⟩) db

/-- The edge-insertion pass of `storeToDgraph`: one row
`(funcName, calledFunc, "calls")` per entry of each function's call list. -/
def storeEdges (functionMap : CallGraph) (db : DB) : DB :=
  functionMap.foldl
    (fun db p => p.2.calls.foldl (fun db c => insertEdge db ⟨p.1, c, "calls"⟩) db) db

/-- `storeToDgraph` (the SQLite variant): create the tables if absent —
keeping whatever rows are already in `callgraph.db` — then insert all nodes,
then all edges. -/
def storeToDgraph (functionMap : CallGraph) (db : DB) : DB :=
  storeEdges functionMap (storeNodes functionMap db)

/-- Strict byte-lexicographic comparison of character lists (SQLite's default
`BINARY` collation on UTF-8 text orders by bytes, which coincides with
lexicographic order on code points). -/
def charListLt : List Char → List Char → Bool
  | [], [] => false
  | [], _ :: _ => true
  | _ :: _, [] => false
  | a :: as, b :: bs => if a < b then true else if b < a then false else charListLt as bs

/-- Strict SQLite `ORDER BY` comparison on text values. -/
def strLtB (a b : String) : Bool := charListLt a.data b.data

/-- Insertion into a `≤`-sorted list, comparing by `lt`. -/
def insertSortedBy (lt : α → α → Bool) (a : α) : List α → List α
  | [] => [a]
  | b :: l => if lt b a then b :: insertSortedBy lt a l else a :: b :: l

/-- Insertion sort by `lt` (the `ORDER BY` of `queryCallGraph`'s SQL). -/
def sortListBy (lt : α → α → Bool) (l : List α) : List α :=
  l.foldr (insertSortedBy lt) []

/-- `ORDER BY` ascending on text. -/
def sortStr (l : List String) : List String := sortListBy strLtB l

/-- `ORDER BY n.id` ascending on node rows. -/
def sortNodes (l : List NodeRow) : List NodeRow :=
  sortListBy (fun a b => strLtB a.id b.id) l

/-- The targets the SQL query joins to one node:
`LEFT JOIN edges e ON n.id = e.source`, emitted in `e.target` order. -/
def nodeTargets (db : DB) (nid : String) : List String :=
  sortStr ((db.edges.filter (fun e => e.source == nid)).map (fun e => e.target))

/-- The result rows for one node: a single `(node, "")` row via
`COALESCE(e.target, '')` when no edge joins, else one row per joined edge. -/
def nodeRows (db : DB) (n : NodeRow) : List (NodeRow × String) :=
  match nodeTargets db n.id with
  | [] => [(n, "")]
  | ts => ts.map (fun t => (n, t))

/-- The full result set of `queryCallGraph`'s SQL, ordered by
`n.id, e.target`. -/
def queryRows (db : DB) : List (NodeRow × String) :=
  concatMap (nodeRows db) (sortNodes db.nodes)

/-- `if _, ok := result[name]; ok` on the scanned result map. -/
def hasKey (res : CallGraph) (n : String) : Bool := res.any (fun p => p.1 == n)

/-- One iteration of the row-scanning loop of `queryCallGraph`: on first
sight of a name, create its entry from the row's `body` with `Calls` reset to
empty; then append the row's target unless it is the `COALESCE`d empty
string. -/
def applyRow (res : CallGraph) (row : NodeRow × String) : CallGraph :=
  let r1 := if hasKey res row.1.name then res
            else res ++ [(row.1.name, ⟨row.1.name, row.1.filePath, []⟩)]
  if row.2 == "" then r1
  else r1.map (fun p =>
    if p.1 == row.1.name then (p.1, ⟨p.2.name, p.2.filePath, p.2.calls ++ [row.2]⟩) else p)

/-- `queryCallGraph` on a database state: scan all result rows, building the
function map that is then handed to DOT generation. -/
def queryCallGraph (db : DB) : CallGraph :=
  (queryRows db).foldl applyRow []

/-! ### The byte-lexicographic order agrees with the order on `String` -/

theorem charListLt_iff (as bs : List Char) :
    charListLt as bs = true ↔ List.Lex (· < ·) as bs := by
  induction as generalizing bs with
  | nil =>
    cases bs with
    | nil =>
      simp only [charListLt]
      constructor
      · intro h; cases h
      · intro h; cases h
    | cons b bs =>
      simp only [charListLt]
      exact ⟨fun _ => List.Lex.nil, fun _ => trivial⟩
  | cons a as ih =>
    cases bs with
    | nil =>
      simp only [charListLt]
      constructor
      · intro h; cases h
      · intro h; cases h
    | cons b bs =>
      by_cases hab : a < b
      · simp only [charListLt, if_pos hab]
        exact ⟨fun _ => List.Lex.rel hab, fun _ => trivial⟩
      · by_cases hba : b < a
        · simp only [charListLt, if_neg hab, if_pos hba]
          constructor
          · intro h; cases h
          · intro h
            cases h with
            | cons h => exact absurd hba (lt_irrefl _)
            | rel h => exact absurd h hab
        · have heq : a = b := le_antisymm (not_lt.mp hba) (not_lt.mp hab)
          subst heq
          simp only [charListLt, if_neg hab, if_neg hba]
          rw [ih bs]
          constructor
          · exact List.Lex.cons
          · intro h
            cases h with
            | cons h => exact h
            | rel h => exact absurd h (lt_irrefl a)

theorem strLtB_iff (a b : String) : strLtB a b = true ↔ a < b := by
  rw [String.lt_iff_toList_lt]
  exact charListLt_iff a.data b.data

theorem strLtB_false_le (a b : String) (h : strLtB b a = false) : a ≤ b := by
  rcases lt_trichotomy a b with hl | he | hg
  · exact le_of_lt hl
  · exact le_of_eq he
  · rw [← strLtB_iff] at hg
    rw [hg] at h
    cases h

/-! ### Sorting lemmas -/

theorem perm_insertSortedBy (lt : α → α → Bool) (a : α) (l : List α) :
    List.Perm (insertSortedBy lt a l) (a :: l) := by
  induction l with
  | nil => exact List.Perm.refl _
  | cons b l ih =>
    by_cases h : lt b a = true
    · simp only [insertSortedBy, if_pos h]
      exact List.Perm.trans (List.Perm.cons b ih) (List.Perm.swap a b l)
    · simp only [insertSortedBy, if_neg h]
      exact List.Perm.refl _

theorem perm_sortListBy (lt : α → α → Bool) (l : List α) :
    List.Perm (sortListBy lt l) l := by
  induction l with
  | nil => exact List.Perm.refl _
  | cons a l ih =>
    exact List.Perm.trans (perm_insertSortedBy lt a (sortListBy lt l)) (List.Perm.cons a ih)

theorem sorted_insertSortedBy_str (a : String) (l : List String)
    (h : l.Sorted (· ≤ ·)) : (insertSortedBy strLtB a l).Sorted (· ≤ ·) := by
  induction l with
  | nil => simp [insertSortedBy]
  | cons b l ih =>
    rw [List.sorted_cons] at h
    by_cases hb : strLtB b a = true
    · simp only [insertSortedBy, if_pos hb]
      rw [List.sorted_cons]
      constructor
      · intro x hx
        have hx' : x ∈ a :: l := (perm_insertSortedBy strLtB a l).mem_iff.mp hx
        rcases List.mem_cons.mp hx' with hxa | hxl
        · exact hxa ▸ le_of_lt ((strLtB_iff b a).mp hb)
        · exact h.1 x hxl
      · exact ih h.2
    · simp only [insertSortedBy, if_neg hb]
      rw [List.sorted_cons]
      constructor
      · intro x hx
        have ha : a ≤ b := strLtB_false_le a b (by simpa using hb)
        rcases List.mem_cons.mp hx with hxb | hxl
        · exact hxb ▸ ha
        · exact le_trans ha (h.1 x hxl)
      · exact List.sorted_cons.mpr h

theorem sorted_sortStr (l : List String) : (sortStr l).Sorted (· ≤ ·) := by
  induction l with
  | nil => simp [sortStr, sortListBy]
  | cons a l ih => exact sorted_insertSortedBy_str a (sortListBy strLtB l) ih

theorem mem_sortStr (l : List String) (x : String) : x ∈ sortStr l ↔ x ∈ l :=
  (perm_sortListBy strLtB l).mem_iff

theorem nodup_sortStr (l : List String) (h : l.Nodup) : (sortStr l).Nodup :=
  (perm_sortListBy strLtB l).nodup_iff.mpr h

theorem perm_sortNodes (l : List NodeRow) : List.Perm (sortNodes l) l := by
  unfold sortNodes
  exact perm_sortListBy _ l

theorem mem_concatMap (f : α → List β) (l : List α) (x : β) :
    x ∈ concatMap f l ↔ ∃ a ∈ l, x ∈ f a := by
  induction l with
  | nil => simp [concatMap]
  | cons a l ih => simp [concatMap, ih]

/-! ### Edge-table characterization -/

theorem mem_insertEdge (db : DB) (e x : EdgeRow) :
    x ∈ (insertEdge db e).edges ↔ x ∈ db.edges ∨ x = e := by
  simp only [insertEdge, List.mem_append, List.mem_filter, List.mem_singleton]
  by_cases hx : x = e
  · simp [hx]
  · simp [hx, bne_iff_ne]

theorem nodup_insertEdge (db : DB) (e : EdgeRow) (h : db.edges.Nodup) :
    (insertEdge db e).edges.Nodup := by
  simp only [insertEdge]
  rw [List.nodup_append]
  refine ⟨h.filter _, List.nodup_singleton e, ?_⟩
  intro x hx hx'
  have h1 := (List.mem_filter.mp hx).2
  have h2 : x = e := List.mem_singleton.mp hx'
  rw [h2] at h1
  simp at h1

theorem insertEdge_nodes (db : DB) (e : EdgeRow) : (insertEdge db e).nodes = db.nodes := rfl

theorem insertNode_edges (db : DB) (r : NodeRow) : (insertNode db r).edges = db.edges := rfl

theorem storeNodes_edges (m : CallGraph) (db : DB) : (storeNodes m db).edges = db.edges := by
  induction m generalizing db with
  | nil => rfl
  | cons p m ih =>
    rw [show storeNodes (p :: m) db =
      storeNodes m (insertNode db ⟨p.2.name, p.2.name, p.2.filePath⟩) from rfl, ih]
    rfl

theorem storeEdges_nodes (m : CallGraph) (db : DB) : (storeEdges m db).nodes = db.nodes := by
  induction m generalizing db with
  | nil => rfl
  | cons p m ih =>
    rw [show storeEdges (p :: m) db =
      storeEdges m (p.2.calls.foldl (fun db c => insertEdge db ⟨p.1, c, "calls"⟩) db) from rfl,
      ih]
    have key : ∀ (cs : List String) (src : String) (db : DB),
        (cs.foldl (fun db c => insertEdge db ⟨src, c, "calls"⟩) db).nodes = db.nodes := by
      intro cs
      induction cs with
      | nil => intro src db; rfl
      | cons c cs ihc =>
        intro src db
        rw [List.foldl_cons, ihc]
        rfl
    exact key p.2.calls p.1 db

theorem mem_foldl_insertEdge (cs : List String) (src : String) (db : DB) (x : EdgeRow) :
    x ∈ (cs.foldl (fun db c => insertEdge db ⟨src, c, "calls"⟩) db).edges ↔
      x ∈ db.edges ∨ ∃ c ∈ cs, x = EdgeRow.mk src c "calls" := by
  induction cs generalizing db with
  | nil => simp
  | cons c cs ih =>
    rw [List.foldl_cons, ih, mem_insertEdge]
    constructor
    · rintro ((h | h) | ⟨c', hc', h⟩)
      · exact Or.inl h
      · exact Or.inr ⟨c, List.mem_cons_self c cs, h⟩
      · exact Or.inr ⟨c', List.mem_cons_of_mem c hc', h⟩
    · rintro (h | ⟨c', hc', h⟩)
      · exact Or.inl (Or.inl h)
      · rcases List.mem_cons.mp hc' with h1 | h1
        · exact Or.inl (Or.inr (h1 ▸ h))
        · exact Or.inr ⟨c', h1, h⟩

theorem nodup_foldl_insertEdge (cs : List String) (src : String) (db : DB)
    (h : db.edges.Nodup) :
    (cs.foldl (fun db c => insertEdge db ⟨src, c, "calls"⟩) db).edges.Nodup := by
  induction cs generalizing db with
  | nil => exact h
  | cons c cs ih =>
    rw [List.foldl_cons]
    exact ih _ (nodup_insertEdge db _ h)

theorem mem_storeEdges (m : CallGraph) (db : DB) (x : EdgeRow) :
    x ∈ (storeEdges m db).edges ↔
      x ∈ db.edges ∨ ∃ p ∈ m, ∃ c ∈ p.2.calls, x = EdgeRow.mk p.1 c "calls" := by
  induction m generalizing db with
  | nil => simp [storeEdges]
  | cons p m ih =>
    rw [show storeEdges (p :: m) db =
      storeEdges m (p.2.calls.foldl (fun db c => insertEdge db ⟨p.1, c, "calls"⟩) db) from rfl,
      ih, mem_foldl_insertEdge]
    constructor
    · rintro ((h | h) | ⟨p', hp', h⟩)
      · exact Or.inl h
      · exact Or.inr ⟨p, List.mem_cons_self p m, h⟩
      · exact Or.inr ⟨p', List.mem_cons_of_mem p hp', h⟩
    · rintro (h | ⟨p', hp', h⟩)
      · exact Or.inl (Or.inl h)
      · rcases List.mem_cons.mp hp' with h1 | h1
        · exact Or.inl (Or.inr (h1 ▸ h))
        · exact Or.inr ⟨p', h1, h⟩

theorem nodup_storeEdges (m : CallGraph) (db : DB) (h : db.edges.Nodup) :
    (storeEdges m db).edges.Nodup := by
  induction m generalizing db with
  | nil => exact h
  | cons p m ih =>
    exact ih _ (nodup_foldl_insertEdge p.2.calls p.1 db h)

/-! ### Node-table characterization -/

theorem storeNodes_acc (m : CallGraph) (db : DB)
    (hdisj : ∀ r ∈ db.nodes, ∀ p ∈ m, r.id ≠ p.2.name)
    (hkeys : (m.map (fun p => p.2.name)).Nodup) :
    (storeNodes m db).nodes =
      db.nodes ++ m.map (fun p => NodeRow.mk p.2.name p.2.name p.2.filePath) := by
  induction m generalizing db with
  | nil => simp [storeNodes]
  | cons p m ih =>
    rw [List.map_cons, List.nodup_cons] at hkeys
    have hfilter : db.nodes.filter
        (fun n => n.id != (NodeRow.mk p.2.name p.2.name p.2.filePath).id) = db.nodes := by
      rw [List.filter_eq_self]
      intro r hr
      simp only [bne_iff_ne, ne_eq]
      exact hdisj r hr p (List.mem_cons_self p m)
    have hstep : storeNodes (p :: m) db =
        storeNodes m (insertNode db (NodeRow.mk p.2.name p.2.name p.2.filePath)) := rfl
    rw [hstep, ih]
    · simp only [insertNode, hfilter]
      simp [List.append_assoc]
    · intro r hr p' hp'
      simp only [insertNode, hfilter, List.mem_append, List.mem_singleton] at hr
      rcases hr with hr | hr
      · exact hdisj r hr p' (List.mem_cons_of_mem p hp')
      · rw [hr]
        intro he
        have he' : p.2.name = p'.2.name := he
        exact hkeys.1 (by rw [he']; exact List.mem_map.mpr ⟨p', hp', rfl⟩)
    · exact hkeys.2

theorem storeNodes_name_mem (m : CallGraph) (db : DB) (i : String)
    (h : (∃ r ∈ db.nodes, r.name = i ∧ r.id = i) ∨ ∃ p ∈ m, p.2.name = i) :
    ∃ r ∈ (storeNodes m db).nodes, r.name = i ∧ r.id = i := by
  induction m generalizing db with
  | nil =>
    rcases h with h | ⟨p, hp, _⟩
    · exact h
    · cases hp
  | cons p m ih =>
    have hstep : storeNodes (p :: m) db =
        storeNodes m (insertNode db (NodeRow.mk p.2.name p.2.name p.2.filePath)) := rfl
    rw [hstep]
    apply ih
    by_cases hp : p.2.name = i
    · left
      refine ⟨NodeRow.mk p.2.name p.2.name p.2.filePath, ?_, hp, hp⟩
      simp [insertNode]
    · rcases h with ⟨r, hr, hname, hid⟩ | ⟨p', hp', hname⟩
      · left
        refine ⟨r, ?_, hname, hid⟩
        simp only [insertNode, List.mem_append]
        left
        rw [List.mem_filter]
        refine ⟨hr, ?_⟩
        simp only [bne_iff_ne, ne_eq]
        rw [hid]
        exact fun he => hp he.symm
      · rcases List.mem_cons.mp hp' with h1 | h1
        · exact absurd (h1 ▸ hname) hp
        · exact Or.inr ⟨p', h1, hname⟩

/-! ### Association-list lookup under distinct keys -/

theorem findFn_of_nodupKeys (l : CallGraph) (n : String) (f : Function)
    (hnd : (l.map Prod.fst).Nodup) (hmem : (n, f) ∈ l) :
    findFn l n = some f := by
  induction l with
  | nil => cases hmem
  | cons q l ih =>
    rw [List.map_cons, List.nodup_cons] at hnd
    rcases List.mem_cons.mp hmem with h | h
    · rw [← h]
      simp [findFn, List.find?_cons]
    · have hq : (q.1 == n) = false := by
        simp only [beq_eq_false_iff_ne, ne_eq]
        intro he
        exact hnd.1 (he ▸ List.mem_map.mpr ⟨(n, f), h, rfl⟩)
      unfold findFn
      rw [List.find?_cons_of_neg _ (by simp [hq])]
      exact ih hnd.2 h

/-! ### The row-scanning loop of `queryCallGraph` -/

theorem hasKey_eq_false (res : CallGraph) (n : String) (h : ∀ p ∈ res, p.1 ≠ n) :
    hasKey res n = false := by
  rw [hasKey, List.any_eq_false]
  intro p hp
  simp [h p hp]

theorem map_update_of_not_mem (res : CallGraph) (n : String)
    (f₀ : String × Function → String × Function) (h : ∀ p ∈ res, p.1 ≠ n) :
    res.map (fun p => if p.1 == n then f₀ p else p) = res := by
  have h1 : res.map (fun p => if p.1 == n then f₀ p else p) = res.map id :=
    List.map_congr_left (fun p hp => by simp [h p hp])
  rw [h1, List.map_id]

theorem foldl_applyRow_block (node : NodeRow) (ts : List String) (res : CallGraph)
    (cs : List String) (hkey : ∀ p ∈ res, p.1 ≠ node.name) (hts : ∀ t ∈ ts, t ≠ "") :
    (ts.map (fun t => (node, t))).foldl applyRow
        (res ++ [(node.name, Function.mk node.name node.filePath cs)]) =
      res ++ [(node.name, Function.mk node.name node.filePath (cs ++ ts))] := by
  induction ts generalizing cs with
  | nil => simp
  | cons t ts ih =>
    rw [List.map_cons, List.foldl_cons]
    have ht : (t == "") = false := by simp [hts t (List.mem_cons_self t ts)]
    have happly : applyRow (res ++ [(node.name, Function.mk node.name node.filePath cs)])
        (node, t) = res ++ [(node.name, Function.mk node.name node.filePath (cs ++ [t]))] := by
      unfold applyRow
      have hk : hasKey (res ++ [(node.name, Function.mk node.name node.filePath cs)])
          node.name = true := by
        simp [hasKey]
      simp only [hk, if_true, ht, Bool.false_eq_true, if_false, List.map_append]
      rw [map_update_of_not_mem res node.name _ hkey]
      simp
    rw [happly, ih (cs ++ [t]) (fun t' ht' => hts t' (List.mem_cons_of_mem t ht'))]
    simp [List.append_assoc]

theorem foldl_applyRow_nodeRows (db : DB) (node : NodeRow) (res : CallGraph)
    (hkey : ∀ p ∈ res, p.1 ≠ node.name)
    (hts : ∀ t ∈ nodeTargets db node.id, t ≠ "") :
    (nodeRows db node).foldl applyRow res =
      res ++ [(node.name, Function.mk node.name node.filePath (nodeTargets db node.id))] := by
  have hk : hasKey res node.name = false := hasKey_eq_false res node.name hkey
  rcases hts0 : nodeTargets db node.id with _ | ⟨t, ts⟩
  · simp only [nodeRows, hts0, List.foldl_cons, List.foldl_nil]
    unfold applyRow
    simp [hk]
  · simp only [nodeRows, hts0, List.map_cons, List.foldl_cons]
    have ht : (t == "") = false := by
      simp [hts t (by rw [hts0]; exact List.mem_cons_self t ts)]
    have happly : applyRow res (node, t) =
        res ++ [(node.name, Function.mk node.name node.filePath [t])] := by
      unfold applyRow
      simp only [hk, Bool.false_eq_true, if_false, ht, List.map_append]
      rw [map_update_of_not_mem res node.name _ hkey]
      simp
    rw [happly,
      foldl_applyRow_block node ts res [t] hkey
        (fun t' ht' => hts t' (by rw [hts0]; exact List.mem_cons_of_mem t ht'))]
    simp

theorem foldl_applyRow_all (db : DB) (ns : List NodeRow) (res : CallGraph)
    (hkey : ∀ n ∈ ns, ∀ p ∈ res, p.1 ≠ n.name)
    (hnames : (ns.map (fun n => n.name)).Nodup)
    (hts : ∀ n ∈ ns, ∀ t ∈ nodeTargets db n.id, t ≠ "") :
    (concatMap (nodeRows db) ns).foldl applyRow res =
      res ++ ns.map (fun n => (n.name, Function.mk n.name n.filePath (nodeTargets db n.id))) := by
  induction ns generalizing res with
  | nil => simp [concatMap]
  | cons node ns ih =>
    rw [List.map_cons, List.nodup_cons] at hnames
    rw [show concatMap (nodeRows db) (node :: ns) =
        nodeRows db node ++ concatMap (nodeRows db) ns from rfl,
      List.foldl_append,
      foldl_applyRow_nodeRows db node res (hkey node (List.mem_cons_self node ns))
        (hts node (List.mem_cons_self node ns)),
      ih (res ++ [(node.name, Function.mk node.name node.filePath (nodeTargets db node.id))])
        ?_ hnames.2 (fun n hn => hts n (List.mem_cons_of_mem node hn))]
    · simp [List.append_assoc]
    · intro n hn p hp
      rcases List.mem_append.mp hp with h1 | h1
      · exact hkey n (List.mem_cons_of_mem node hn) p h1
      · rw [List.mem_singleton.mp h1]
        intro he
        have he' : node.name = n.name := he
        exact hnames.1 (by rw [he']; exact List.mem_map.mpr ⟨n, hn, rfl⟩)

/-! ### Claim C9: the store/query round trip sorts and deduplicates calls -/

/-- Claim C9: storing a well-formed function map into a fresh `callgraph.db`
and querying it back returns, for each function, a record whose calls list is
strictly ascending (hence duplicate-free — a double call comes back as one
entry) and contains exactly the distinct callees of the stored record: the
`UNIQUE(source, target, properties) ON CONFLICT REPLACE` edge table collapses
duplicates and `ORDER BY n.id, e.target` imposes name order, discarding
source appearance order. -/
theorem store_query_sorts_dedups (m : CallGraph)
    (hkeys : (m.map Prod.fst).Nodup)
    (hinv : ∀ p ∈ m, p.2.name = p.1)
    (hne : ∀ p ∈ m, ∀ c ∈ p.2.calls, c ≠ "")
    (n : String) (f : Function) (hmem : (n, f) ∈ m) :
    ∃ g, findFn (queryCallGraph (storeToDgraph m emptyDB)) n = some g ∧
      g.calls.Sorted (· < ·) ∧
      ∀ c, c ∈ g.calls ↔ c ∈ f.calls := by
  have hkeys2 : (m.map (fun p => p.2.name)).Nodup := by
    rw [List.map_congr_left (fun p hp => hinv p hp)]
    exact hkeys
  have hsn : (storeNodes m emptyDB).nodes =
      m.map (fun p => NodeRow.mk p.2.name p.2.name p.2.filePath) := by
    have h := storeNodes_acc m emptyDB (by intro r hr; cases hr) hkeys2
    simpa [emptyDB] using h
  have hnodes : (storeToDgraph m emptyDB).nodes =
      m.map (fun p => NodeRow.mk p.2.name p.2.name p.2.filePath) := by
    rw [show (storeToDgraph m emptyDB).nodes =
      (storeEdges m (storeNodes m emptyDB)).nodes from rfl, storeEdges_nodes, hsn]
  have hedges0 : (storeNodes m emptyDB).edges = [] := by
    rw [storeNodes_edges]
    rfl
  have hedmem : ∀ x : EdgeRow, x ∈ (storeToDgraph m emptyDB).edges ↔
      ∃ p ∈ m, ∃ c ∈ p.2.calls, x = EdgeRow.mk p.1 c "calls" := by
    intro x
    rw [show (storeToDgraph m emptyDB).edges =
      (storeEdges m (storeNodes m emptyDB)).edges from rfl, mem_storeEdges, hedges0]
    simp
  have hednodup : (storeToDgraph m emptyDB).edges.Nodup := by
    apply nodup_storeEdges
    rw [hedges0]
    exact List.nodup_nil
  have hnames : ((sortNodes (storeToDgraph m emptyDB).nodes).map (fun r => r.name)).Nodup := by
    rw [((perm_sortNodes (storeToDgraph m emptyDB).nodes).map (fun r => r.name)).nodup_iff,
      hnodes, List.map_map]
    exact hkeys2
  have hts : ∀ r ∈ sortNodes (storeToDgraph m emptyDB).nodes,
      ∀ t ∈ nodeTargets (storeToDgraph m emptyDB) r.id, t ≠ "" := by
    intro r _ t ht
    rw [nodeTargets, mem_sortStr] at ht
    rcases List.mem_map.mp ht with ⟨e, he, rfl⟩
    have he' := (List.mem_filter.mp he).1
    rcases (hedmem e).mp he' with ⟨p, hp, c, hc, rfl⟩
    exact hne p hp c hc
  have hq : queryCallGraph (storeToDgraph m emptyDB) =
      (sortNodes (storeToDgraph m emptyDB).nodes).map
        (fun r => (r.name, Function.mk r.name r.filePath
          (nodeTargets (storeToDgraph m emptyDB) r.id))) := by
    rw [show queryCallGraph (storeToDgraph m emptyDB) =
      (concatMap (nodeRows (storeToDgraph m emptyDB))
        (sortNodes (storeToDgraph m emptyDB).nodes)).foldl applyRow [] from rfl,
      foldl_applyRow_all (storeToDgraph m emptyDB) _ [] (by intro r _ p hp; cases hp)
        hnames hts]
    simp
  have hfn : f.name = n := hinv (n, f) hmem
  have hnode0 : NodeRow.mk f.name f.name f.filePath ∈
      sortNodes (storeToDgraph m emptyDB).nodes := by
    rw [(perm_sortNodes (storeToDgraph m emptyDB).nodes).mem_iff, hnodes]
    exact List.mem_map.mpr ⟨(n, f), hmem, rfl⟩
  have hentry : (f.name, Function.mk f.name f.filePath
      (nodeTargets (storeToDgraph m emptyDB) f.name)) ∈
      queryCallGraph (storeToDgraph m emptyDB) := by
    rw [hq]
    exact List.mem_map.mpr ⟨NodeRow.mk f.name f.name f.filePath, hnode0, rfl⟩
  have hreskeys : ((queryCallGraph (storeToDgraph m emptyDB)).map Prod.fst).Nodup := by
    rw [hq, List.map_map]
    exact hnames
  have hlookup : findFn (queryCallGraph (storeToDgraph m emptyDB)) n =
      some (Function.mk n f.filePath
        (nodeTargets (storeToDgraph m emptyDB) n)) := by
    apply findFn_of_nodupKeys _ _ _ hreskeys
    rw [hfn] at hentry
    exact hentry
  refine ⟨Function.mk n f.filePath (nodeTargets (storeToDgraph m emptyDB) n),
    hlookup, ?_, ?_⟩
  · have hraw : (((storeToDgraph m emptyDB).edges.filter
        (fun e => e.source == n)).map (fun e => e.target)).Nodup := by
      apply List.Nodup.map_on ?_ (hednodup.filter _)
      intro x hx y hy hxy
      have hx1 := List.mem_filter.mp hx
      have hy1 := List.mem_filter.mp hy
      have hxs : x.source = n := by simpa using hx1.2
      have hys : y.source = n := by simpa using hy1.2
      have hxp : x.properties = "calls" := by
        rcases (hedmem x).mp hx1.1 with ⟨p, _, c, _, hx2⟩
        rw [hx2]
      have hyp : y.properties = "calls" := by
        rcases (hedmem y).mp hy1.1 with ⟨p, _, c, _, hy2⟩
        rw [hy2]
      cases x
      cases y
      simp_all
    have hnd : (nodeTargets (storeToDgraph m emptyDB) n).Nodup :=
      nodup_sortStr _ hraw
    exact (sorted_sortStr _).lt_of_le hnd
  · intro c
    show c ∈ nodeTargets (storeToDgraph m emptyDB) n ↔ c ∈ f.calls
    rw [nodeTargets, mem_sortStr]
    constructor
    · intro hc
      rcases List.mem_map.mp hc with ⟨e, he, rfl⟩
      have he1 := List.mem_filter.mp he
      rcases (hedmem e).mp he1.1 with ⟨⟨p1, p2⟩, hp, c', hc', he2⟩
      have hps : p1 = n := by
        have hsource : e.source = n := by simpa using he1.2
        rw [he2] at hsource
        exact hsource
      rw [hps] at hp
      have hpf : p2 = f := by
        have h1 := findFn_of_nodupKeys m n p2 hkeys hp
        have h3 := findFn_of_nodupKeys m n f hkeys hmem
        rw [h1] at h3
        exact Option.some.inj h3
      rw [he2]
      rw [← hpf]
      exact hc'
    · intro hc
      apply List.mem_map.mpr
      refine ⟨EdgeRow.mk n c "calls", ?_, rfl⟩
      rw [List.mem_filter]
      refine ⟨(hedmem _).mpr ⟨(n, f), hmem, c, hc, rfl⟩, ?_⟩
      simp

/-- The map of a function `b` in `x.go` that calls `c`, `a`, and `c` again. -/
def storedMap : CallGraph :=
  [("b", Function.mk "b" "x.go" ["c", "a", "c"])]

/-- Witness for C9 at a concrete map with a duplicate, unsorted call list. -/
theorem store_query_sorts_dedups_witness :
    ∃ g, findFn (queryCallGraph (storeToDgraph storedMap emptyDB)) "b" = some g ∧
      g.calls.Sorted (· < ·) ∧
      ∀ c, c ∈ g.calls ↔ c ∈ (Function.mk "b" "x.go" ["c", "a", "c"]).calls :=
  store_query_sorts_dedups storedMap (by decide) (by decide) (by decide) "b"
    (Function.mk "b" "x.go" ["c", "a", "c"]) (by decide)

/-! ### Claim C3 (corrected): database state leaks across invocations -/

theorem hasKey_map_keys (res : CallGraph) (u : String × Function → String × Function)
    (k : String) (hu : ∀ p, (u p).1 = p.1) :
    hasKey (res.map u) k = hasKey res k := by
  unfold hasKey
  rw [List.any_map]
  have hpt : ∀ p : String × Function, ((u p).1 == k) = (p.1 == k) := by
    intro p
    rw [hu p]
  simp only [Function.comp_def]
  simp only [hpt]

theorem hasKey_applyRow (res : CallGraph) (row : NodeRow × String) (k : String) :
    hasKey (applyRow res row) k = (hasKey res k || (row.1.name == k)) := by
  unfold applyRow
  have happ : hasKey (res ++ [(row.1.name, Function.mk row.1.name row.1.filePath [])]) k =
      (hasKey res k || (row.1.name == k)) := by
    unfold hasKey
    simp [List.any_append]
  have hupd : ∀ p : String × Function,
      ((if p.1 == row.1.name
        then (p.1, Function.mk p.2.name p.2.filePath (p.2.calls ++ [row.2]))
        else p)).1 = p.1 := by
    intro p
    by_cases h : (p.1 == row.1.name) = true <;> simp [h]
  by_cases hk : hasKey res row.1.name = true
  · have hor : (hasKey res k || (row.1.name == k)) = hasKey res k := by
      by_cases hnk : (row.1.name == k) = true
      · have heq : row.1.name = k := by simpa using hnk
        rw [heq] at hk
        simp [hnk, hk]
      · simp only [Bool.not_eq_true] at hnk
        simp [hnk]
    by_cases ht : (row.2 == "") = true
    · simp [hk, ht, hor]
    · simp only [hk, if_true, ht, Bool.false_eq_true, if_false]
      rw [hasKey_map_keys res _ k hupd]
      exact hor.symm
  · simp only [Bool.not_eq_true] at hk
    by_cases ht : (row.2 == "") = true
    · simp only [hk, Bool.false_eq_true, if_false, ht, if_true]
      exact happ
    · simp only [hk, Bool.false_eq_true, if_false, ht]
      rw [hasKey_map_keys _ _ k hupd]
      exact happ

theorem hasKey_foldl_applyRow_mono (rows : List (NodeRow × String)) (res : CallGraph)
    (k : String) (h : hasKey res k = true) : hasKey (rows.foldl applyRow res) k = true := by
  induction rows generalizing res with
  | nil => exact h
  | cons row rows ih =>
    rw [List.foldl_cons]
    apply ih
    rw [hasKey_applyRow, h]
    rfl

theorem hasKey_foldl_applyRow_of_mem (rows : List (NodeRow × String)) (res : CallGraph)
    (row' : NodeRow × String) (hmem : row' ∈ rows) :
    hasKey (rows.foldl applyRow res) row'.1.name = true := by
  induction rows generalizing res with
  | nil => cases hmem
  | cons row rows ih =>
    rw [List.foldl_cons]
    rcases List.mem_cons.mp hmem with h | h
    · apply hasKey_foldl_applyRow_mono
      rw [hasKey_applyRow, ← h]
      simp
    · exact ih _ h

theorem hasKey_queryCallGraph (db : DB) (r : NodeRow) (hr : r ∈ db.nodes) :
    hasKey (queryCallGraph db) r.name = true := by
  have hr' : r ∈ sortNodes db.nodes := (perm_sortNodes db.nodes).mem_iff.mpr hr
  have hrow : ∃ t, (r, t) ∈ queryRows db := by
    rcases h0 : nodeTargets db r.id with _ | ⟨t, ts⟩
    · exact ⟨"", (mem_concatMap _ _ _).mpr ⟨r, hr', by simp [nodeRows, h0]⟩⟩
    · refine ⟨t, (mem_concatMap _ _ _).mpr ⟨r, hr', ?_⟩⟩
      simp only [nodeRows, h0, List.map_cons]
      exact List.mem_cons_self _ _
  rcases hrow with ⟨t, ht⟩
  have := hasKey_foldl_applyRow_of_mem (queryRows db) [] (r, t) ht
  exact this

theorem findFn_isSome_iff_hasKey (res : CallGraph) (k : String) :
    (findFn res k).isSome = hasKey res k := by
  induction res with
  | nil => rfl
  | cons p res ih =>
    unfold findFn hasKey at ih ⊢
    rw [List.find?_cons, List.any_cons]
    by_cases h : (p.1 == k) = true <;> simp [h, ih]

/-- Two graphs playing the roles of an earlier and the current invocation. -/
def priorRun : CallGraph := [("f", Function.mk "f" "a.go" [])]

def currRun : CallGraph := [("g", Function.mk "g" "b.go" [])]

/-- Counterexample to claim C3 as stated: running the store/query pipeline
over the current run's graph on top of the database file left behind by an
earlier invocation yields an exported graph that still contains the earlier
run's record `f` — so the graph handed to the export adapter does depend on
state left behind by earlier invocations. -/
theorem db_state_leaks_cex :
    findFn (queryCallGraph (storeToDgraph currRun (storeToDgraph priorRun emptyDB))) "f" =
      some (Function.mk "f" "a.go" []) ∧
    findFn (queryCallGraph (storeToDgraph currRun emptyDB)) "f" = none := by
  constructor
  · rfl
  · rfl

/-- Claim C3 (amended): the in-memory aggregation does start from an empty
map each run, but the exported graph is read back from `callgraph.db`, which
`storeToDgraph` never clears (`CREATE TABLE IF NOT EXISTS` plus inserts
only): every function name stored by an earlier invocation and not redefined
by the current run still appears in the current run's queried graph.  Two
invocations agree only when the database starts empty. -/
theorem stale_records_persist (prior m : CallGraph) (n : String) (f : Function)
    (hmem : (n, f) ∈ prior) (hinv : ∀ p ∈ prior, p.2.name = p.1)
    (hfresh : ∀ p ∈ m, p.2.name ≠ n) :
    (findFn (queryCallGraph (storeToDgraph m (storeToDgraph prior emptyDB))) n).isSome =
      true := by
  have h1 : ∃ r ∈ (storeToDgraph prior emptyDB).nodes, r.name = n ∧ r.id = n := by
    rw [show (storeToDgraph prior emptyDB).nodes =
      (storeNodes prior emptyDB).nodes from storeEdges_nodes prior _]
    apply storeNodes_name_mem
    right
    exact ⟨(n, f), hmem, hinv (n, f) hmem⟩
  have h2 : ∃ r ∈ (storeToDgraph m (storeToDgraph prior emptyDB)).nodes,
      r.name = n ∧ r.id = n := by
    rw [show (storeToDgraph m (storeToDgraph prior emptyDB)).nodes =
      (storeNodes m (storeToDgraph prior emptyDB)).nodes from storeEdges_nodes m _]
    exact storeNodes_name_mem m _ n (Or.inl h1)
  rcases h2 with ⟨r, hr, hname, _⟩
  rw [findFn_isSome_iff_hasKey]
  have h3 := hasKey_queryCallGraph _ r hr
  rw [hname] at h3
  exact h3

/-- Witness for the amended C3 at the concrete two-run scenario. -/
theorem stale_records_persist_witness :
    (findFn (queryCallGraph (storeToDgraph currRun (storeToDgraph priorRun emptyDB)))
      "f").isSome = true :=
  stale_records_persist priorRun currRun "f" (Function.mk "f" "a.go" [])
    (by decide) (by decide) (by decide)

end Mobl
